import Mathlib

/-!
Verification of the generic-languages reduction-pass module of shrinkray
(src/shrinkray/passes/genericlanguages.py) against its specification.

Byte strings are modelled as lists of natural numbers (the byte values).
Each definition below is a shallow embedding of the corresponding Python
function; doc comments name the source construct being embedded.
-/

namespace Shrinkray

/-- Python slice x[a:b] for non-negative a and b: take the elements with
indices in [a, b), clamping out-of-range bounds. -/
def pySlice (x : List Nat) (a b : Nat) : List Nat :=
  (x.take b).drop a

/-- The Substring format adapter. Field pre models the prefix attribute
and suf the suffix attribute (prefix is a reserved word in Lean). -/
structure SubstringFormat where
  pre : List Nat
  suf : List Nat

/-- Substring.parse: if the input starts with the prefix and ends with the
suffix, return input[len(prefix) : len(input) - len(suffix)], else signal
ParseError (modelled as none). -/
def SubstringFormat.parse (fmt : SubstringFormat) (input : List Nat) :
    Option (List Nat) :=
  if fmt.pre.isPrefixOf input && fmt.suf.isSuffixOf input then
    some (pySlice input fmt.pre.length (input.length - fmt.suf.length))
  else
    none

/-- Substring.dumps: prefix + input + suffix. -/
def SubstringFormat.dumps (fmt : SubstringFormat) (input : List Nat) :
    List Nat :=
  fmt.pre ++ input ++ fmt.suf

/-- Helper for C3: when the prefix and suffix match without overlapping,
the slice taken by Substring.parse is the middle part, and dumps restores
the input. -/
theorem substring_parse_dumps (fmt : SubstringFormat) (x : List Nat)
    (h1 : fmt.pre.isPrefixOf x = true) (h2 : fmt.suf.isSuffixOf x = true)
    (h3 : fmt.pre.length + fmt.suf.length ≤ x.length) :
    fmt.parse x = some (pySlice x fmt.pre.length (x.length - fmt.suf.length)) ∧
      fmt.dumps (pySlice x fmt.pre.length (x.length - fmt.suf.length)) = x := by
  have hpre : fmt.pre <+: x := List.isPrefixOf_iff_prefix.mp h1
  have hsuf : fmt.suf <:+ x := List.isSuffixOf_iff_suffix.mp h2
  obtain ⟨t, ht⟩ := hpre
  have hxlen : x.length = fmt.pre.length + t.length := by
    have := congrArg List.length ht; simp at this; omega
  have ht2 : t = x.drop fmt.pre.length := by
    rw [← ht, List.drop_left]
  have hsufdrop : fmt.suf = x.drop (x.length - fmt.suf.length) :=
    List.suffix_iff_eq_drop.mp hsuf
  have hmem : ∃ m, m ++ fmt.suf = t := by
    have : fmt.suf <:+ t := by
      rw [List.suffix_iff_eq_drop, ht2, List.drop_drop, List.length_drop]
      have harith : fmt.pre.length + (x.length - fmt.pre.length - fmt.suf.length)
          = x.length - fmt.suf.length := by omega
      rw [harith]
      exact hsufdrop
    exact this
  obtain ⟨m, hm⟩ := hmem
  have hmx : x = fmt.pre ++ m ++ fmt.suf := by
    rw [← ht, ← hm]; simp
  have hslice : pySlice x fmt.pre.length (x.length - fmt.suf.length) = m := by
    rw [hmx]
    unfold pySlice
    have hlen1 : (fmt.pre ++ m ++ fmt.suf).length - fmt.suf.length
        = (fmt.pre ++ m).length := by simp; omega
    rw [hlen1, List.take_left' rfl, List.drop_left]
  constructor
  · unfold SubstringFormat.parse
    rw [h1, h2]
    simp
  · rw [hslice]
    unfold SubstringFormat.dumps
    rw [hmx]

/-- C3 (counterexample): the round-trip law fails when the prefix and the
suffix overlap inside the input. With prefix = suffix = "a" and input "a",
both the prefix and the suffix match, parse succeeds with the empty middle,
yet dumps maps it back to "aa", not "a". -/
theorem C3_substring_overlap_counterexample :
    (SubstringFormat.mk [97] [97]).pre.isPrefixOf [97] = true ∧
    (SubstringFormat.mk [97] [97]).suf.isSuffixOf [97] = true ∧
    (SubstringFormat.mk [97] [97]).parse [97] = some [] ∧
    (SubstringFormat.mk [97] [97]).dumps [] ≠ [97] := by
  decide

/-- C3 (amended): for every input x that starts with the prefix and ends
with the suffix and is long enough for the two matches not to overlap
(len(prefix) + len(suffix) <= len(x)), parse succeeds and dumps inverts it;
for every input on which the prefix or suffix test fails, parse signals
ParseFailure. -/
theorem C3_substring_roundtrip :
    ∀ (fmt : SubstringFormat) (x : List Nat),
      (fmt.pre.isPrefixOf x = true → fmt.suf.isSuffixOf x = true →
        fmt.pre.length + fmt.suf.length ≤ x.length →
        fmt.parse x = some (pySlice x fmt.pre.length (x.length - fmt.suf.length)) ∧
          fmt.dumps (pySlice x fmt.pre.length (x.length - fmt.suf.length)) = x) ∧
      ((fmt.pre.isPrefixOf x && fmt.suf.isSuffixOf x) = false →
        fmt.parse x = none) := by
  intro fmt x
  refine ⟨substring_parse_dumps fmt x, ?_⟩
  intro h
  unfold SubstringFormat.parse
  rw [h]
  simp

/-- Witness for C3: the amended round-trip at prefix "a", suffix "b",
input "acb", and the failure branch at input "a". -/
theorem C3_substring_roundtrip_witness :
    ((SubstringFormat.mk [97] [98]).parse [97, 99, 98] =
        some (pySlice [97, 99, 98] 1 2) ∧
      (SubstringFormat.mk [97] [98]).dumps (pySlice [97, 99, 98] 1 2) =
        [97, 99, 98]) ∧
    (SubstringFormat.mk [97] [98]).parse [97] = none :=
  ⟨(C3_substring_roundtrip ⟨[97], [98]⟩ [97, 99, 98]).1 (by decide) (by decide)
      (by decide),
    (C3_substring_roundtrip ⟨[97], [98]⟩ [97]).2 (by decide)⟩

/-! ### Numeric binary-search shrinker (reduce_integer) -/

/-- State of a run of reduce_integer against a deterministic oracle: the
log of every oracle probe made so far with its outcome, and the current
test case of the session (updated to m whenever a probe of m is accepted,
per the session contract that an accepted proposal becomes the current
value). -/
structure ProbeState where
  probes : List (Nat × Bool)
  current : Nat

/-- One call problem.is_interesting(m): record the probe and update the
current test case when the oracle accepts. -/
def probe (f : Nat → Bool) (st : ProbeState) (m : Nat) : Bool × ProbeState :=
  (f m, ⟨st.probes ++ [(m, f m)], if f m then m else st.current⟩)

/-- The while-loop of reduce_integer: while lo + 1 < hi, probe
mid = (lo + hi) / 2 and move hi or lo; then probe hi - 1 and tighten hi on
success; then probe lo + 1, returning on success and advancing lo
otherwise. Termination (the hi - lo measure strictly decreases) is proved
as part of the definition. -/
def reduceLoop (f : Nat → Bool) (lo hi : Nat) (st : ProbeState) : ProbeState :=
  if h : lo + 1 < hi then
    let mid := (lo + hi) / 2
    let r1 := probe f st mid
    let lo1 := if r1.1 then lo else mid
    let hi1 := if r1.1 then mid else hi
    let r2 := probe f r1.2 (hi1 - 1)
    let hi2 := if r2.1 then hi1 - 1 else hi1
    let r3 := probe f r2.2 (lo1 + 1)
    if r3.1 then r3.2
    else reduceLoop f (lo1 + 1) hi2 r3.2
  else st
termination_by hi - lo
decreasing_by
  simp only [probe, mid, lo1, hi1, hi2, r1, r2, r3]
  split_ifs <;> omega

/-- reduce_integer: probe 0 first (global shortcut), otherwise run the
binary-search loop from lo = 0, hi = n. The session starts at the
non-negative candidate n. -/
def reduce_integer (f : Nat → Bool) (n : Nat) : ProbeState :=
  let st0 : ProbeState := ⟨[], n⟩
  let r := probe f st0 0
  if r.1 then r.2 else reduceLoop f 0 n r.2

/-- Postcondition of the claim: final value bounded by n, and equal to 0
or such that its predecessor was probed and reported not interesting; no
accepted probe exceeded n. -/
def loopOut (n : Nat) (st : ProbeState) : Prop :=
  st.current ≤ n ∧
    (st.current = 0 ∨ (st.current - 1, false) ∈ st.probes) ∧
    (∀ m, (m, true) ∈ st.probes → m ≤ n)

/-- Helper: split membership in a probe log extended by three entries. -/
theorem mem_ppp {α : Type} {p a b c : α} {L : List α}
    (h : p ∈ L ++ [a] ++ [b] ++ [c]) : p ∈ L ∨ p = a ∨ p = b ∨ p = c := by
  simp only [List.mem_append, List.mem_singleton] at h
  tauto

/-- Helper: membership in the old log persists in the extended log. -/
theorem mem_ppp_left {α : Type} {p : α} {L : List α} (a b c : α)
    (h : p ∈ L) : p ∈ L ++ [a] ++ [b] ++ [c] :=
  List.mem_append_left _ (List.mem_append_left _ (List.mem_append_left _ h))

/-- Helper: the accepted-probe bound is preserved when three probes whose
accepted indices are at most n are appended to the log. -/
theorem trueBound_step {n : Nat} {L : List (Nat × Bool)} {x1 x2 x3 : Nat}
    {b1 b2 b3 : Bool}
    (hL : ∀ m, (m, true) ∈ L → m ≤ n)
    (h1 : b1 = true → x1 ≤ n) (h2 : b2 = true → x2 ≤ n)
    (h3 : b3 = true → x3 ≤ n) :
    ∀ m, (m, true) ∈ L ++ [(x1, b1)] ++ [(x2, b2)] ++ [(x3, b3)] → m ≤ n := by
  intro m hm
  rcases mem_ppp hm with hm | hm | hm | hm
  · exact hL m hm
  · rw [Prod.mk.injEq] at hm
    rw [hm.1]
    exact h1 hm.2.symm
  · rw [Prod.mk.injEq] at hm
    rw [hm.1]
    exact h2 hm.2.symm
  · rw [Prod.mk.injEq] at hm
    rw [hm.1]
    exact h3 hm.2.symm

/-- Loop invariant of reduceLoop: the current test case tracks hi, lo is a
probed-uninteresting value, everything accepted stays at most n, and on
exit the final value is 0 or has a probed-uninteresting predecessor. -/
theorem reduceLoop_spec (f : Nat → Bool) (n : Nat) :
    ∀ (K lo hi : Nat) (st : ProbeState), hi - lo ≤ K →
      st.current = hi → hi ≤ n → f lo = false → (lo, false) ∈ st.probes →
      (lo + 1 < hi ∨ hi = 0 ∨ (hi - 1, false) ∈ st.probes) →
      (∀ m, (m, true) ∈ st.probes → m ≤ n) →
      loopOut n (reduceLoop f lo hi st) := by
  intro K
  induction K with
  | zero =>
    intro lo hi st hK hcur hhin hflo hlomem hdisj htrue
    have hcond : ¬ lo + 1 < hi := by omega
    rw [reduceLoop, dif_neg hcond]
    refine ⟨by omega, ?_, htrue⟩
    rcases hdisj with h | h | h
    · omega
    · left; omega
    · right; rw [hcur]; exact h
  | succ K ih =>
    intro lo hi st hK hcur hhin hflo hlomem hdisj htrue
    by_cases hcond : lo + 1 < hi
    · rw [reduceLoop, dif_pos hcond]
      have hmid1 : lo + 1 ≤ (lo + hi) / 2 := by omega
      have hmid2 : (lo + hi) / 2 ≤ hi - 1 := by omega
      simp only [probe]
      rcases (Bool.eq_false_or_eq_true (f ((lo + hi) / 2))).symm with hb1 | hb1
      · -- f mid = false : lo1 = mid, hi1 = hi
        simp only [hb1, Bool.false_eq_true, ite_false, reduceIte]
        rcases (Bool.eq_false_or_eq_true (f (hi - 1))).symm with hb2 | hb2
        · -- f (hi-1) = false : hi2 = hi
          simp only [hb2, Bool.false_eq_true, ite_false, reduceIte]
          rcases (Bool.eq_false_or_eq_true (f ((lo + hi) / 2 + 1))).symm with hb3 | hb3
          · -- recurse with lo' = mid+1, hi' = hi, current unchanged
            simp only [hb3, Bool.false_eq_true, ite_false, reduceIte]
            apply ih
            · omega
            · exact hcur
            · exact hhin
            · exact hb3
            · simp
            · right; right; simp
            · exact trueBound_step htrue (fun h => by cases h)
                (fun h => by cases h) (fun h => by cases h)
          · -- return, current = mid+1
            simp only [hb3, ite_true, reduceIte]
            refine ⟨(by omega : (lo + hi) / 2 + 1 ≤ n), ?_, ?_⟩
            · right
              show ((lo + hi) / 2 + 1 - 1, false) ∈ _
              have heq : (lo + hi) / 2 + 1 - 1 = (lo + hi) / 2 := by omega
              rw [heq]
              simp
            · exact trueBound_step htrue (fun h => by cases h)
                (fun h => by cases h) (fun _ => by omega)
        · -- f (hi-1) = true : hi2 = hi-1, current = hi-1
          simp only [hb2, ite_true, reduceIte]
          rcases (Bool.eq_false_or_eq_true (f ((lo + hi) / 2 + 1))).symm with hb3 | hb3
          · -- recurse with lo' = mid+1, hi' = hi-1
            simp only [hb3, Bool.false_eq_true, ite_false, reduceIte]
            have hne1 : (lo + hi) / 2 + 1 ≠ hi - 1 := by
              intro hcontra
              rw [hcontra, hb2] at hb3
              cases hb3
            have hne2 : (lo + hi) / 2 ≠ hi - 1 := by
              intro hcontra
              rw [hcontra, hb2] at hb1
              cases hb1
            apply ih
            · omega
            · rfl
            · omega
            · exact hb3
            · simp
            · by_cases hcase : (lo + hi) / 2 + 1 + 1 < hi - 1
              · left; exact hcase
              · right; right
                have heq : hi - 1 - 1 = (lo + hi) / 2 + 1 := by omega
                rw [heq]
                simp
            · exact trueBound_step htrue (fun h => by cases h)
                (fun _ => by omega) (fun h => by cases h)
          · -- return, current = mid+1
            simp only [hb3, ite_true, reduceIte]
            refine ⟨(by omega : (lo + hi) / 2 + 1 ≤ n), ?_, ?_⟩
            · right
              show ((lo + hi) / 2 + 1 - 1, false) ∈ _
              have heq : (lo + hi) / 2 + 1 - 1 = (lo + hi) / 2 := by omega
              rw [heq]
              simp
            · exact trueBound_step htrue (fun h => by cases h)
                (fun _ => by omega) (fun _ => by omega)
      · -- f mid = true : lo1 = lo, hi1 = mid
        simp only [hb1, ite_true, reduceIte]
        rcases (Bool.eq_false_or_eq_true (f ((lo + hi) / 2 - 1))).symm with hb2 | hb2
        · -- f (mid-1) = false : hi2 = mid, current = mid
          simp only [hb2, Bool.false_eq_true, ite_false, reduceIte]
          rcases (Bool.eq_false_or_eq_true (f (lo + 1))).symm with hb3 | hb3
          · -- recurse with lo' = lo+1, hi' = mid
            simp only [hb3, Bool.false_eq_true, ite_false, reduceIte]
            apply ih
            · omega
            · rfl
            · omega
            · exact hb3
            · simp
            · right; right
              have heq : (lo + hi) / 2 - 1 = (lo + hi) / 2 - 1 := rfl
              simp
            · exact trueBound_step htrue (fun _ => by omega)
                (fun h => by cases h) (fun h => by cases h)
          · -- return, current = lo+1
            simp only [hb3, ite_true, reduceIte]
            refine ⟨(by omega : lo + 1 ≤ n), ?_, ?_⟩
            · right
              show (lo + 1 - 1, false) ∈ _
              have heq : lo + 1 - 1 = lo := by omega
              rw [heq]
              exact mem_ppp_left _ _ _ hlomem
            · exact trueBound_step htrue (fun _ => by omega)
                (fun h => by cases h) (fun _ => by omega)
        · -- f (mid-1) = true : hi2 = mid-1, current = mid-1
          simp only [hb2, ite_true, reduceIte]
          rcases (Bool.eq_false_or_eq_true (f (lo + 1))).symm with hb3 | hb3
          · -- recurse with lo' = lo+1, hi' = mid-1
            simp only [hb3, Bool.false_eq_true, ite_false, reduceIte]
            have hne1 : (lo + hi) / 2 - 1 ≠ lo := by
              intro hcontra
              rw [hcontra, hflo] at hb2
              cases hb2
            have hne2 : (lo + hi) / 2 - 1 ≠ lo + 1 := by
              intro hcontra
              rw [hcontra, hb3] at hb2
              cases hb2
            apply ih
            · omega
            · rfl
            · omega
            · exact hb3
            · simp
            · by_cases hcase : lo + 1 + 1 < (lo + hi) / 2 - 1
              · left; exact hcase
              · right; right
                have heq : (lo + hi) / 2 - 1 - 1 = lo + 1 := by omega
                rw [heq]
                simp
            · exact trueBound_step htrue (fun _ => by omega)
                (fun _ => by omega) (fun h => by cases h)
          · -- return, current = lo+1
            simp only [hb3, ite_true, reduceIte]
            refine ⟨(by omega : lo + 1 ≤ n), ?_, ?_⟩
            · right
              show (lo + 1 - 1, false) ∈ _
              have heq : lo + 1 - 1 = lo := by omega
              rw [heq]
              exact mem_ppp_left _ _ _ hlomem
            · exact trueBound_step htrue (fun _ => by omega)
                (fun _ => by omega) (fun _ => by omega)
    · rw [reduceLoop, dif_neg hcond]
      refine ⟨by omega, ?_, htrue⟩
      rcases hdisj with h | h | h
      · omega
      · left; omega
      · right; rw [hcur]; exact h


/-- C2: for every deterministic oracle and every non-negative initial
candidate n, reduce_integer terminates (it is a total function, with the
loop terminating by the hi - lo measure), never accepts a value larger
than n, and its final accepted value v is either 0 or a value whose
predecessor v - 1 was probed by the oracle and reported not interesting. -/
theorem C2_reduce_integer (f : Nat → Bool) (n : Nat) :
    (reduce_integer f n).current ≤ n ∧
      ((reduce_integer f n).current = 0 ∨
        ((reduce_integer f n).current - 1, false) ∈ (reduce_integer f n).probes) ∧
      (∀ m, (m, true) ∈ (reduce_integer f n).probes → m ≤ n) := by
  have hmain : loopOut n (reduce_integer f n) := by
    rw [reduce_integer]
    simp only [probe]
    rcases (Bool.eq_false_or_eq_true (f 0)).symm with h0 | h0
    · simp only [h0, Bool.false_eq_true, ite_false, reduceIte]
      apply reduceLoop_spec f n n 0 n
      · omega
      · rfl
      · omega
      · exact h0
      · simp
      · rcases Nat.lt_or_ge 1 n with hn | hn
        · left; omega
        · rcases Nat.eq_zero_or_pos n with hz | hp
          · right; left; exact hz
          · right; right
            have : n - 1 = 0 := by omega
            rw [this]
            simp
      · intro m hm
        simp at hm
    · simp only [h0, ite_true, reduceIte]
      unfold loopOut
      refine ⟨(by omega : (0 : Nat) ≤ n), Or.inl rfl, ?_⟩
      intro m hm
      simp at hm
      omega
  exact hmain

/-! ### IntegerFormat adapter -/

/-- Characters stripped by Python int() / str.strip: ASCII whitespace. -/
def isPySpace (c : Nat) : Bool := c = 32 || (9 ≤ c && c ≤ 13)

/-- ASCII decimal digit test. -/
def isDigit (c : Nat) : Bool := 48 ≤ c && c ≤ 57

/-- Strip leading and trailing ASCII whitespace, as Python int() does before
parsing a decimal literal. -/
def stripWs (l : List Nat) : List Nat :=
  ((l.dropWhile isPySpace).reverse.dropWhile isPySpace).reverse

/-- Digit sequence of a Python int literal after the optional sign: digits
with single underscores allowed only between digits; returns the value. -/
def pyDigitsAux (acc : Nat) : List Nat → Option Nat
  | [] => some acc
  | 95 :: c :: rest =>
      if isDigit c then pyDigitsAux (acc * 10 + (c - 48)) rest else none
  | c :: rest =>
      if isDigit c then pyDigitsAux (acc * 10 + (c - 48)) rest else none

/-- Value of a Python decimal int literal body: must start with a digit. -/
def pyIntVal : List Nat → Option Nat
  | [] => none
  | c :: rest => if isDigit c then pyDigitsAux (c - 48) rest else none

/-- IntegerFormat.parse: int(input.decode("ascii")). Decoding fails on any
byte at least 128; int() strips ASCII whitespace, accepts an optional sign
and digits with single underscores between digits. ValueError and
UnicodeDecodeError are turned into ParseError (none). -/
def IntegerFormat.parse (input : List Nat) : Option Int :=
  if input.all (· < 128) then
    match stripWs input with
    | 43 :: rest => (pyIntVal rest).map (fun v => (v : Int))
    | 45 :: rest => (pyIntVal rest).map (fun v => -(v : Int))
    | s => (pyIntVal s).map (fun v => (v : Int))
  else none

/-- Fuel-driven big-endian decimal digits of n, as ASCII codes. -/
def natDecAux : Nat → Nat → List Nat
  | 0, _ => []
  | fuel+1, n => if n = 0 then [] else natDecAux fuel (n / 10) ++ [n % 10 + 48]

/-- str(n).encode("ascii") for a natural number: canonical decimal form. -/
def natDecStr (n : Nat) : List Nat :=
  if n = 0 then [48] else natDecAux (n + 1) n

/-- IntegerFormat.dumps: str(input).encode("ascii") for an integer, with a
leading minus sign for negative values. -/
def IntegerFormat.dumps (n : Int) : List Nat :=
  if n < 0 then 45 :: natDecStr n.natAbs else natDecStr n.natAbs

/-- Helper: on an underscore-free all-digit string the literal-body parser
is a plain left fold. -/
theorem pyDigitsAux_all_digits : ∀ (acc : Nat) (ds : List Nat),
    (∀ d ∈ ds, isDigit d = true) →
    pyDigitsAux acc ds = some (ds.foldl (fun a c => a * 10 + (c - 48)) acc) := by
  intro acc ds
  induction acc, ds using pyDigitsAux.induct with
  | case1 acc => intro _; simp [pyDigitsAux]
  | case2 acc c rest hc ih =>
    intro h
    have h95 : isDigit 95 = true := h 95 (by simp)
    simp [isDigit] at h95
  | case3 acc c rest hc =>
    intro h
    have h95 : isDigit 95 = true := h 95 (by simp)
    simp [isDigit] at h95
  | case4 acc c rest hne hc ih =>
    intro h
    rw [pyDigitsAux]
    · rw [if_pos hc, ih (fun d hd => h d (by simp [hd]))]
      simp
    · exact hne
  | case5 acc c rest hne hc =>
    intro h
    have := h c (by simp)
    exact absurd this hc

/-- Helper: folding over ASCII digit codes equals folding over digit values. -/
theorem foldl_map48 (L : List Nat) : ∀ acc : Nat,
    (L.map (fun d => d + 48)).foldl (fun a c => a * 10 + (c - 48)) acc
      = L.foldl (fun a d => a * 10 + d) acc := by
  induction L with
  | nil => intro acc; rfl
  | cons d L ih =>
    intro acc
    simp only [List.map_cons, List.foldl_cons]
    have h48 : d + 48 - 48 = d := by omega
    rw [h48, ih]

/-- Helper: the big-endian digit fold computes the value of the reversed
(little-endian) digit list. -/
theorem foldl_bigEndian (L : List Nat) : ∀ acc : Nat,
    L.foldl (fun a d => a * 10 + d) acc
      = acc * 10 ^ L.length + Nat.ofDigits 10 L.reverse := by
  induction L with
  | nil => intro acc; simp [Nat.ofDigits]
  | cons d L ih =>
    intro acc
    simp only [List.foldl_cons, List.reverse_cons, List.length_cons]
    rw [ih]
    rw [Nat.ofDigits_append]
    simp [Nat.ofDigits]
    ring

/-- Helper: with enough fuel, natDecAux produces the reversed base-10
digits of n as ASCII codes. -/
theorem natDecAux_eq (fuel : Nat) : ∀ n, n < fuel →
    natDecAux fuel n = (Nat.digits 10 n).reverse.map (fun d => d + 48) := by
  induction fuel with
  | zero => intro n h; omega
  | succ fuel ih =>
    intro n h
    rcases Nat.eq_zero_or_pos n with h0 | h0
    · subst h0; simp [natDecAux]
    · rw [natDecAux, if_neg (by omega)]
      rw [ih (n / 10) (by omega)]
      rw [Nat.digits_def' (by norm_num : (1 : Nat) < 10) h0]
      simp

/-- Helper: closed form of natDecStr via Nat.digits. -/
theorem natDecStr_eq (n : Nat) :
    natDecStr n =
      if n = 0 then [48] else (Nat.digits 10 n).reverse.map (fun d => d + 48) := by
  unfold natDecStr
  rcases Nat.eq_zero_or_pos n with h0 | h0
  · simp [h0]
  · rw [if_neg (by omega), if_neg (by omega), natDecAux_eq (n + 1) n (by omega)]

/-- Helper: every character of a rendered natural number is a digit. -/
theorem natDecStr_all_digit (n : Nat) : ∀ c ∈ natDecStr n, isDigit c = true := by
  rw [natDecStr_eq]
  rcases Nat.eq_zero_or_pos n with h0 | h0
  · simp [h0]; decide
  · rw [if_neg (by omega)]
    intro c hc
    simp only [List.mem_map, List.mem_reverse] at hc
    obtain ⟨d, hd, rfl⟩ := hc
    have : d < 10 := Nat.digits_lt_base (by norm_num) hd
    unfold isDigit
    simp
    omega

/-- Helper: the decimal rendering is never empty. -/
theorem natDecStr_ne_nil (n : Nat) : natDecStr n ≠ [] := by
  rw [natDecStr_eq]
  rcases Nat.eq_zero_or_pos n with h0 | h0
  · simp [h0]
  · rw [if_neg (by omega)]
    simp
    exact Nat.digits_ne_nil_iff_ne_zero.mpr (by omega)

/-- Helper: a digit character is not whitespace. -/
theorem digit_not_space {c : Nat} (h : isDigit c = true) : isPySpace c = false := by
  unfold isDigit at h
  unfold isPySpace
  simp at h ⊢
  omega

/-- Helper: dropWhile is the identity when no element satisfies the
predicate. -/
theorem dropWhile_eq_self_of_all {p : Nat → Bool} (l : List Nat)
    (h : ∀ c ∈ l, p c = false) : l.dropWhile p = l := by
  cases l with
  | nil => rfl
  | cons a t =>
    rw [List.dropWhile_cons]
    simp [h a (List.mem_cons_self a t)]

/-- Helper: stripping whitespace is the identity on whitespace-free
strings. -/
theorem stripWs_eq_self (l : List Nat) (h : ∀ c ∈ l, isPySpace c = false) :
    stripWs l = l := by
  unfold stripWs
  rw [dropWhile_eq_self_of_all l h,
    dropWhile_eq_self_of_all l.reverse
      (fun c hc => h c (List.mem_reverse.mp hc)),
    List.reverse_reverse]

/-- Helper: the literal-body parser succeeds on any nonempty all-digit
string. -/
theorem pyIntVal_all_digits (L : List Nat) (hne : L ≠ [])
    (h : ∀ d ∈ L, isDigit d = true) :
    pyIntVal L = some (L.foldl (fun a c => a * 10 + (c - 48)) 0) := by
  cases L with
  | nil => exact absurd rfl hne
  | cons c rest =>
    rw [pyIntVal, if_pos (h c (by simp))]
    rw [pyDigitsAux_all_digits _ _ (fun d hd => h d (by simp [hd]))]
    simp

/-- Helper: parsing the canonical rendering of n recovers n. -/
theorem pyIntVal_natDecStr (n : Nat) : pyIntVal (natDecStr n) = some n := by
  rcases Nat.eq_zero_or_pos n with h0 | h0
  · subst h0; decide
  · have hdig := natDecStr_all_digit n
    rw [pyIntVal_all_digits _ (natDecStr_ne_nil n) hdig]
    congr 1
    rw [natDecStr_eq, if_neg (by omega)]
    rw [foldl_map48, foldl_bigEndian]
    simp [Nat.ofDigits_digits]

/-- C7 (amended): dumps followed by parse is the identity on every integer:
parse accepts every canonical rendering and recovers the same value. The
original direction dumps(parse(x)) == x fails for accepted non-canonical
inputs, and parse accepts strictly more than the base-10 non-negative
integers (signs, whitespace, underscores, leading zeros). -/
theorem C7_integer_parse_dumps (n : Int) :
    IntegerFormat.parse (IntegerFormat.dumps n) = some n := by
  have hdig := natDecStr_all_digit n.natAbs
  have hall : ∀ c ∈ natDecStr n.natAbs, c < 128 := by
    intro c hc
    have := hdig c hc
    unfold isDigit at this
    simp at this
    omega
  have hnospace : ∀ c ∈ natDecStr n.natAbs, isPySpace c = false :=
    fun c hc => digit_not_space (hdig c hc)
  by_cases hneg : n < 0
  · rw [IntegerFormat.dumps, if_pos hneg, IntegerFormat.parse]
    rw [if_pos]
    swap
    · simp only [List.all_cons, Bool.and_eq_true, List.all_eq_true, decide_eq_true_eq]
      refine ⟨by omega, fun c hc => hall c hc⟩
    · have hstrip : stripWs (45 :: natDecStr n.natAbs) = 45 :: natDecStr n.natAbs := by
        apply stripWs_eq_self
        intro c hc
        rcases List.mem_cons.mp hc with rfl | hc
        · decide
        · exact hnospace c hc
      rw [hstrip]
      split
      · rename_i r heq
        rw [List.cons.injEq] at heq
        exact absurd heq.1 (by omega)
      · rename_i r heq
        rw [List.cons.injEq] at heq
        rw [← heq.2, pyIntVal_natDecStr]
        have habs : ((n.natAbs : Int)) = -n := by omega
        simp [habs]
      · rename_i hne1 hne2
        exact (hne2 (natDecStr n.natAbs) rfl).elim
  · rw [IntegerFormat.dumps, if_neg hneg, IntegerFormat.parse]
    rw [if_pos]
    swap
    · simp only [List.all_eq_true]
      intro c hc
      simp only [decide_eq_true_eq]
      exact hall c (by simpa using hc)
    · have hstrip : stripWs (natDecStr n.natAbs) = natDecStr n.natAbs :=
        stripWs_eq_self _ hnospace
      rw [hstrip]
      obtain ⟨c, rest, hL⟩ : ∃ c rest, natDecStr n.natAbs = c :: rest := by
        cases hE : natDecStr n.natAbs with
        | nil => exact absurd hE (natDecStr_ne_nil _)
        | cons c rest => exact ⟨c, rest, rfl⟩
      have hc : isDigit c = true := hdig c (by rw [hL]; simp)
      have hc43 : c ≠ 43 := by unfold isDigit at hc; simp at hc; omega
      have hc45 : c ≠ 45 := by unfold isDigit at hc; simp at hc; omega
      rw [hL]
      split
      · rename_i r heq
        rw [List.cons.injEq] at heq
        exact absurd heq.1 hc43
      · rename_i r heq
        rw [List.cons.injEq] at heq
        exact absurd heq.1 hc45
      · rw [← hL, pyIntVal_natDecStr]
        simp
        omega

/-- C7 (counterexample): parse accepts b"07", which does not round-trip
(dumps gives b"7"), and also accepts b"-1", which is not a non-negative
integer literal; so parse succeeds on more than canonical non-negative
decimals and dumps(parse(x)) = x fails on such inputs. -/
theorem C7_counterexample :
    IntegerFormat.parse [48, 55] = some 7 ∧
    IntegerFormat.dumps 7 ≠ [48, 55] ∧
    IntegerFormat.parse [45, 49] = some (-1) := by
  constructor
  · decide
  constructor
  · decide
  · decide

/-! ### Token renaming (normalize_identifiers) -/


/-- Lexicographic comparison of byte strings, as Python compares bytes. -/
def lexLtBytes : List Nat → List Nat → Bool
  | [], [] => false
  | [], _ :: _ => true
  | _ :: _, [] => false
  | a :: as, b :: bs => if a < b then true else if b < a then false else lexLtBytes as bs

/-- The strict order induced by the shortlex key (len(s), s) used by
normalize_identifiers: shorter first, ties broken lexicographically. -/
def shortlexLt (s t : List Nat) : Bool :=
  decide (s.length < t.length) ||
    (decide (s.length = t.length) && lexLtBytes s t)

/-- Regex word character, the class underlying the boundary assertion. -/
def isWordByte (c : Nat) : Bool :=
  (65 ≤ c && c ≤ 90) || (97 ≤ c && c ≤ 122) || (48 ≤ c && c ≤ 57) || c = 95

/-- Whether position j of s holds a word character (out of range counts
as non-word). -/
def isWordAt (s : List Nat) (j : Nat) : Bool :=
  match s[j]? with
  | some c => isWordByte c
  | none => false

/-- Word-boundary assertion at offset k of s: exactly one of the
neighbouring positions k - 1 and k holds a word character. -/
def boundaryAt (s : List Nat) (k : Nat) : Bool :=
  (if k = 0 then false else isWordAt s (k - 1)) != isWordAt s k

/-- Whether the whole-word pattern for token t matches s at offset u:
the bytes at [u, u + len(t)) equal t, with word boundaries on both sides. -/
def matchAt (s t : List Nat) (u : Nat) : Bool :=
  ((s.drop u).take t.length == t) && boundaryAt s u && boundaryAt s (u + t.length)

/-- pattern.search(source) finds at least one whole-word occurrence of t. -/
def hasMatch (s t : List Nat) : Bool :=
  (List.range (s.length + 1)).any (matchAt s t)

/-- pattern.sub(r, s) for the nonempty whole-word pattern of token t:
scan left to right from offset k, replacing each match by r and resuming
after its end, copying bytes verbatim elsewhere. The guard 0 < len(t)
ensures progress; the pass only ever builds this pattern from nonempty
tokens. -/
def reSub (t r s : List Nat) (k : Nat) : List Nat :=
  if hk : k < s.length then
    if matchAt s t k && decide (0 < t.length) then
      r ++ reSub t r s (k + t.length)
    else
      s.getD k 0 :: reSub t r s (k + 1)
  else []
termination_by s.length - k
decreasing_by
  · simp at *
    omega
  · omega


/-- can_replace of normalize_identifiers for a fixed token t and captured
source: reject without probing when the candidate replacement is not
strictly shortlex-smaller; otherwise substitute, assert the attempt
changed the source (none models the assertion failing), and probe the
oracle with the attempt, recording the probe. -/
def can_replace (f : List Nat → Bool) (t source r : List Nat) :
    Option (Bool × List (List Nat)) :=
  if shortlexLt r t = false then some (false, [])
  else
    let attempt := reSub t r source 0
    if attempt = source then none
    else some (f attempt, [attempt])

/-- Helper: the byte-wise lexicographic order is irreflexive. -/
theorem lexLtBytes_irrefl : ∀ s : List Nat, lexLtBytes s s = false := by
  intro s
  induction s with
  | nil => rfl
  | cons a as ih => simp [lexLtBytes, ih]

/-- Helper: a strict shortlex step means strictly shorter, or equal
length and different. -/
theorem shortlexLt_cases {r t : List Nat} (h : shortlexLt r t = true) :
    r.length < t.length ∨ (r.length = t.length ∧ r ≠ t) := by
  unfold shortlexLt at h
  simp only [Bool.or_eq_true, Bool.and_eq_true, decide_eq_true_eq] at h
  rcases h with h | ⟨h1, h2⟩
  · left; exact h
  · right
    refine ⟨h1, ?_⟩
    intro hrt
    rw [hrt, lexLtBytes_irrefl] at h2
    cases h2

/-- Helper: a whole-word match of a nonempty token lies inside the
string. -/
theorem matchAt_bound {s t : List Nat} {u : Nat} (ht : 0 < t.length)
    (h : matchAt s t u = true) : u + t.length ≤ s.length := by
  unfold matchAt at h
  simp only [Bool.and_eq_true, beq_iff_eq] at h
  have hlen := congrArg List.length h.1.1
  simp [List.length_take, List.length_drop] at hlen
  omega

/-- Helper: substituting a replacement no longer than the token never
lengthens the remainder of the scan. -/
theorem reSub_length_le (t r s : List Nat) (hrt : r.length ≤ t.length) :
    ∀ k, (reSub t r s k).length ≤ s.length - k := by
  intro k
  induction k using reSub.induct t r s with
  | case1 k hk hmat ih =>
    rw [reSub, dif_pos hk, if_pos hmat]
    have hb : matchAt s t k = true ∧ 0 < t.length := by
      simpa using hmat
    have := matchAt_bound hb.2 hb.1
    simp only [List.length_append]
    omega
  | case2 k hk hmat ih =>
    rw [reSub, dif_pos hk, if_neg hmat]
    simp only [List.length_cons]
    omega
  | case3 k hk =>
    rw [reSub, dif_neg hk]
    simp

/-- Helper: a successful search yields a match offset. -/
theorem hasMatch_exists {s t : List Nat} (h : hasMatch s t = true) :
    ∃ u, matchAt s t u = true := by
  unfold hasMatch at h
  rw [List.any_eq_true] at h
  obtain ⟨u, _, hu⟩ := h
  exact ⟨u, hu⟩

/-- Helper: up to the first match the scan copies the source verbatim,
then emits the replacement and continues after the match. -/
theorem reSub_decompose (t r s : List Nat) (ht : 0 < t.length) :
    ∀ d k u, u - k ≤ d → k ≤ u → matchAt s t u = true →
      (∀ j, k ≤ j → j < u → matchAt s t j = false) →
      reSub t r s k = (s.drop k).take (u - k) ++ r ++ reSub t r s (u + t.length) := by
  intro d
  induction d with
  | zero =>
    intro k u hd hku hmat hnomat
    have hk : k = u := by omega
    subst hk
    have hlen := matchAt_bound ht hmat
    rw [reSub, dif_pos (by omega), if_pos (by simp [hmat, ht])]
    simp
  | succ d ih =>
    intro k u hd hku hmat hnomat
    rcases Nat.eq_or_lt_of_le hku with heq | hlt
    · subst heq
      have hlen := matchAt_bound ht hmat
      rw [reSub, dif_pos (by omega), if_pos (by simp [hmat, ht])]
      simp
    · have hklen : k < s.length := by
        have := matchAt_bound ht hmat
        omega
      have hnok : matchAt s t k = false := hnomat k (le_refl k) hlt
      rw [reSub, dif_pos hklen, if_neg (by simp [hnok])]
      rw [ih (k + 1) u (by omega) (by omega) hmat
        (fun j hj1 hj2 => hnomat j (by omega) hj2)]
      have hdrop : s.drop k = s.getD k 0 :: s.drop (k + 1) := by
        rw [List.getD_eq_getElem s 0 hklen]
        exact List.drop_eq_getElem_cons hklen
      rw [hdrop]
      have hsub : u - k = (u - k - 1) + 1 := by omega
      have htake : (s.getD k 0 :: s.drop (k + 1)).take (u - k)
          = s.getD k 0 :: (s.drop (k + 1)).take (u - k - 1) := by
        conv_lhs => rw [hsub]
        rw [List.take_succ_cons]
      rw [htake]
      simp [Nat.sub_sub]

/-- Helper: substituting a strictly shortlex-smaller replacement at an
existing whole-word match always changes the source: a shorter
replacement strictly shrinks the result, and an equal-length different
replacement differs at the first match. -/
theorem reSub_ne_source (t source r : List Nat) (ht : 0 < t.length)
    (hm : hasMatch source t = true) (hlt : shortlexLt r t = true) :
    reSub t r source 0 ≠ source := by
  have hP : ∃ u, matchAt source t u = true := hasMatch_exists hm
  set u0 := Nat.find hP with hu0def
  have hmat : matchAt source t u0 = true := Nat.find_spec hP
  have hmin : ∀ j, j < u0 → matchAt source t j = false := by
    intro j hj
    have := Nat.find_min hP hj
    simpa using this
  have hbound := matchAt_bound ht hmat
  intro hEq
  have hdec := reSub_decompose t r source ht u0 0 u0 (by omega) (by omega) hmat
    (fun j _ hj2 => hmin j hj2)
  simp only [Nat.sub_zero, List.drop_zero] at hdec
  have hmid : (source.drop u0).take t.length = t := by
    unfold matchAt at hmat
    simp only [Bool.and_eq_true, beq_iff_eq] at hmat
    exact hmat.1.1
  have hsrc : source = source.take u0 ++ (t ++ source.drop (u0 + t.length)) := by
    have h1 : source.drop u0 = t ++ source.drop (u0 + t.length) := by
      conv_lhs => rw [← List.take_append_drop t.length (source.drop u0)]
      rw [List.drop_drop, hmid]
    conv_lhs => rw [← List.take_append_drop u0 source]
    rw [h1]
  rw [hdec] at hEq
  conv_rhs at hEq => rw [hsrc]
  rw [List.append_assoc] at hEq
  have hcancel : r ++ reSub t r source (u0 + t.length)
      = t ++ source.drop (u0 + t.length) :=
    List.append_cancel_left hEq
  rcases shortlexLt_cases hlt with hlen | ⟨hlen, hne⟩
  · have hlenX := reSub_length_le t r source (by omega) (u0 + t.length)
    have := congrArg List.length hcancel
    simp only [List.length_append, List.length_drop] at this
    omega
  · have htake := congrArg (List.take r.length) hcancel
    rw [List.take_left] at htake
    rw [hlen] at htake
    rw [List.take_left] at htake
    exact hne htake



/-- C6: can_replace rejects any candidate replacement that is not
strictly shortlex-smaller than the token without probing the oracle
(empty probe list), and any accepted replacement is strictly
shortlex-smaller. -/
theorem C6_shortlex_guard :
    ∀ (f : List Nat → Bool) (t source r : List Nat),
      (shortlexLt r t = false → can_replace f t source r = some (false, [])) ∧
      (∀ res probes, can_replace f t source r = some (res, probes) →
        res = true → shortlexLt r t = true) := by
  intro f t source r
  constructor
  · intro h
    unfold can_replace
    rw [if_pos h]
  · intro res probes hcr hres
    by_cases h : shortlexLt r t = true
    · exact h
    · have hf : shortlexLt r t = false := by
        revert h
        cases shortlexLt r t <;> simp
      unfold can_replace at hcr
      rw [if_pos hf] at hcr
      rw [Option.some.injEq, Prod.mk.injEq] at hcr
      rw [hres] at hcr
      cases hcr.1

/-- Witness for C6: a longer candidate is rejected with no probe, and an
accepted single-letter replacement is strictly shortlex-smaller. -/
theorem C6_witness :
    can_replace (fun _ => true) [98] [98] [99, 99] = some (false, []) ∧
      shortlexLt [97] [98] = true :=
  ⟨(C6_shortlex_guard (fun _ => true) [98] [98] [99, 99]).1 (by decide),
    (C6_shortlex_guard (fun _ => true) [98] [98] [97]).2 true [[97]]
      (by simp [can_replace, reSub, matchAt, boundaryAt, isWordAt, isWordByte, shortlexLt, lexLtBytes])
      rfl⟩

/-- C10: the assertion attempt != source in can_replace never fails:
whenever the whole-word pattern of the nonempty token t has a match in
the captured source and r is strictly shortlex-smaller than t, the
substitution changes the source, so can_replace never reaches the
assertion-failure outcome. -/
theorem C10_can_replace_assertion (f : List Nat → Bool) (t source r : List Nat)
    (ht : 0 < t.length) (hm : hasMatch source t = true)
    (hlt : shortlexLt r t = true) :
    reSub t r source 0 ≠ source ∧ can_replace f t source r ≠ none := by
  have hne := reSub_ne_source t source r ht hm hlt
  refine ⟨hne, ?_⟩
  unfold can_replace
  rw [if_neg (by rw [hlt]; simp)]
  simp only []
  rw [if_neg hne]
  simp

/-- Witness for C10 at token "a", source "a", replacement the empty
string. -/
theorem C10_witness :
    reSub [97] [] [97] 0 ≠ [97] ∧
      can_replace (fun _ => true) [97] [97] [] ≠ none :=
  C10_can_replace_assertion (fun _ => true) [97] [97] []
    (by decide) (by decide) (by decide)

/-! ### The replace reconstruction of regex_pass -/

/-- Loop body of the replace closure in regex_pass: walk the regions
paired with their replacement slots, emitting the snapshot bytes between
prev and each region start, then the slot value (or s for region i), and
finally the snapshot tail from the last region end. -/
def replaceAux (initial : List Nat) (i : Nat) (s : List Nat) :
    List ((Nat × Nat) × List Nat) → Nat → Nat → List Nat
  | [], prev, _ => initial.drop prev
  | ((u, v), rj) :: rest, prev, j =>
      pySlice initial prev u ++ (if j = i then s else rj) ++
        replaceAux initial i s rest v (j + 1)

/-- replace(i, s) of regex_pass: rebuild the full candidate from the
pass-start snapshot, every replacement slot, and s in place of slot i. -/
def replace (initial : List Nat) (regions : List (Nat × Nat))
    (repls : List (List Nat)) (i : Nat) (s : List Nat) : List Nat :=
  replaceAux initial i s (regions.zip repls) 0 0

/-- The initial replacement slots: the matched bytes of each region,
replacements = [initial[u:v] for u, v in matching_regions]. -/
def snapshotRepls (initial : List Nat) (regions : List (Nat × Nat)) :
    List (List Nat) :=
  regions.map (fun p => pySlice initial p.1 p.2)

/-- Well-formedness of a region list relative to a scan position: regions
are ascending and non-overlapping starting at offset prev. -/
def chainFrom (prev : Nat) : List (Nat × Nat) → Bool
  | [] => true
  | (u, v) :: rest => decide (prev ≤ u) && decide (u ≤ v) && chainFrom v rest

/-- Helper: gluing the slice [p, u) onto the tail from u gives the tail
from p. -/
theorem drop_take_append (x : List Nat) (p u : Nat) (h : p ≤ u) :
    (x.take u).drop p ++ x.drop u = x.drop p := by
  by_cases hp : p ≤ (x.take u).length
  · conv_rhs => rw [← List.take_append_drop u x]
    rw [List.drop_append_of_le_length hp]
  · have hlen : x.length < p := by
      rw [List.length_take] at hp
      omega
    rw [List.drop_eq_nil_of_le (by rw [List.length_take]; omega),
      List.drop_eq_nil_of_le (by omega),
      List.drop_eq_nil_of_le (by omega)]
    rfl

/-- Helper: slice [prev, u), slice [u, v) and the tail from v glue to the
tail from prev. -/
theorem slice_glue (x : List Nat) (prev u v : Nat) (h1 : prev ≤ u) (h2 : u ≤ v) :
    pySlice x prev u ++ pySlice x u v ++ x.drop v = x.drop prev := by
  unfold pySlice
  rw [List.append_assoc, drop_take_append x u v h2, drop_take_append x prev u h1]

/-- Helper: walking regions whose slots hold the snapshot slices, with s
equal to the slot of position i wherever position i is reached,
reconstructs the snapshot tail. -/
theorem replaceAux_snapshot (initial : List Nat) (i : Nat) (s : List Nat) :
    ∀ (regs : List (Nat × Nat)) (prev j : Nat),
      chainFrom prev regs = true →
      (∀ idx, j + idx = i →
        s = ((regs.map (fun p => pySlice initial p.1 p.2)).getD idx s)) →
      replaceAux initial i s
        (regs.zip (regs.map (fun p => pySlice initial p.1 p.2))) prev j
        = initial.drop prev := by
  intro regs
  induction regs with
  | nil => intro prev j _ _; rfl
  | cons uv rest ih =>
    obtain ⟨u, v⟩ := uv
    intro prev j hchain hidx
    rw [chainFrom] at hchain
    simp only [Bool.and_eq_true, decide_eq_true_eq] at hchain
    obtain ⟨⟨hpu, huv⟩, hrest⟩ := hchain
    simp only [List.map_cons, List.zip_cons_cons]
    rw [replaceAux]
    have hrec := ih v (j + 1) hrest (fun idx hjx => by
      have := hidx (idx + 1) (by omega)
      simpa using this)
    rw [hrec]
    have hins : (if j = i then s else pySlice initial u v) = pySlice initial u v := by
      by_cases hji : j = i
      · rw [if_pos hji]
        have := hidx 0 (by omega)
        simpa using this
      · rw [if_neg hji]
    rw [hins]
    exact slice_glue initial prev u v hpu huv

/-- Helper: the walk ignores s when index i is outside the walked
range. -/
theorem replaceAux_irrel (initial : List Nat) (i : Nat) :
    ∀ (ps : List ((Nat × Nat) × List Nat)) (prev j : Nat) (s s' : List Nat),
      (i < j ∨ j + ps.length ≤ i) →
      replaceAux initial i s ps prev j = replaceAux initial i s' ps prev j := by
  intro ps
  induction ps with
  | nil => intro prev j s s' _; rfl
  | cons p rest ih =>
    obtain ⟨⟨u, v⟩, rj⟩ := p
    intro prev j s s' hcond
    rw [replaceAux, replaceAux]
    have hji : j ≠ i := by
      simp only [List.length_cons] at hcond
      omega
    rw [if_neg hji, if_neg hji]
    rw [ih v (j + 1) s s' (by simp only [List.length_cons] at hcond; omega)]

/-- Helper: when i lies in the walked range the result is a fixed prefix,
then s, then a fixed suffix, none depending on s. -/
theorem replaceAux_locality (initial : List Nat) (i : Nat) :
    ∀ (ps : List ((Nat × Nat) × List Nat)) (prev j : Nat),
      j ≤ i → i < j + ps.length →
      ∃ P S, ∀ s, replaceAux initial i s ps prev j = P ++ s ++ S := by
  intro ps
  induction ps with
  | nil =>
    intro prev j h1 h2
    simp at h2
    omega
  | cons p rest ih =>
    obtain ⟨⟨u, v⟩, rj⟩ := p
    intro prev j h1 h2
    by_cases hji : j = i
    · refine ⟨pySlice initial prev u, replaceAux initial i [] rest v (j + 1), ?_⟩
      intro s
      rw [replaceAux, if_pos hji]
      rw [replaceAux_irrel initial i rest v (j + 1) s [] (by omega)]
    · have hlt : j < i := by omega
      simp only [List.length_cons] at h2
      obtain ⟨P, S, hPS⟩ := ih v (j + 1) (by omega) (by omega)
      refine ⟨pySlice initial prev u ++ rj ++ P, S, ?_⟩
      intro s
      rw [replaceAux, if_neg hji, hPS s]
      simp [List.append_assoc]

/-- Helper: getD with the fetched element as default is idempotent. -/
theorem getD_getD (L : List (List Nat)) (i : Nat) :
    L.getD i (L.getD i []) = L.getD i [] := by
  by_cases h : i < L.length
  · rw [List.getD_eq_getElem L _ h, List.getD_eq_getElem L _ h]
  · rw [List.getD_eq_default L _ (by omega), List.getD_eq_default L _ (by omega)]

/-- C9: with well-formed (ascending, non-overlapping) regions and slots
initialized to the matched snapshot bytes, replace(i, replacements[i])
equals the pass-start candidate for every region index i; and for any
slot contents, replace(i, s) is a fixed prefix ++ s ++ fixed suffix, so
it differs from any other reconstruction only within region i
contribution, leaving the inter-region snapshot bytes and every sibling
slot contribution unchanged. -/
theorem C9_replace_reconstruction :
    ∀ (initial : List Nat) (regions : List (Nat × Nat))
      (repls : List (List Nat)) (i : Nat),
      (chainFrom 0 regions = true →
        replace initial regions (snapshotRepls initial regions) i
          ((snapshotRepls initial regions).getD i []) = initial) ∧
      (i < regions.length → i < repls.length →
        ∃ P S, ∀ s, replace initial regions repls i s = P ++ s ++ S) := by
  intro initial regions repls i
  constructor
  · intro hchain
    unfold replace snapshotRepls
    rw [replaceAux_snapshot initial i _ regions 0 0 hchain]
    · exact List.drop_zero initial
    · intro idx hidx
      have hii : idx = i := by omega
      subst hii
      exact (getD_getD (regions.map (fun p => pySlice initial p.1 p.2)) idx).symm
  · intro h1 h2
    unfold replace
    apply replaceAux_locality initial i (regions.zip repls) 0 0 (by omega)
    rw [List.length_zip]
    omega

/-- Witness for C9 on a concrete three-byte candidate with two regions. -/
theorem C9_witness :
    (replace [0, 1, 2] [(0, 1), (2, 3)]
        (snapshotRepls [0, 1, 2] [(0, 1), (2, 3)]) 0
        ((snapshotRepls [0, 1, 2] [(0, 1), (2, 3)]).getD 0 []) = [0, 1, 2]) ∧
    (∃ P S, ∀ s, replace [0, 1, 2] [(0, 1), (2, 3)] [[5], [6]] 0 s
        = P ++ s ++ S) :=
  ⟨(C9_replace_reconstruction [0, 1, 2] [(0, 1), (2, 3)]
      (snapshotRepls [0, 1, 2] [(0, 1), (2, 3)]) 0).1 (by decide),
    (C9_replace_reconstruction [0, 1, 2] [(0, 1), (2, 3)] [[5], [6]] 0).2
      (by decide) (by decide)⟩

/-! ### Region collection scan of regex_pass -/

/-- The region-collection loop at the start of regex_pass: while
i < len(candidate), search from i; stop on no match, else record the
match span and resume at its end. Python re guarantees no termination
here when a match is empty (i does not advance), so the loop is modelled
with explicit fuel: none means the given fuel was exhausted. -/
def scanRegions (search : List Nat → Nat → Option (Nat × Nat)) (s : List Nat) :
    Nat → Nat → List (Nat × Nat) → Option (List (Nat × Nat))
  | 0, _, _ => none
  | fuel + 1, i, acc =>
    if i < s.length then
      match search s i with
      | none => some acc
      | some (u, v) => scanRegions search s fuel v (acc ++ [(u, v)])
    else some acc

/-- The scan terminates when some finite fuel suffices. -/
def scanTerminates (search : List Nat → Nat → Option (Nat × Nat))
    (s : List Nat) : Prop :=
  ∃ fuel, (scanRegions search s fuel 0 []).isSome

/-- A search function modelling a pattern with an empty match everywhere,
such as the regex a* on a candidate with no a: the first match from
position i is the empty span at i. -/
def emptySearch (s : List Nat) (i : Nat) : Option (Nat × Nat) :=
  if i ≤ s.length then some (i, i) else none

/-- The collected spans are ascending from offset i, each nonempty and
starting no earlier than the previous end (hence pairwise
non-overlapping). -/
def orderedFrom (i : Nat) : List (Nat × Nat) → Bool
  | [] => true
  | (u, v) :: rest => decide (i ≤ u) && decide (u < v) && orderedFrom v rest

/-- Helper: with an everywhere-empty match the scan never advances and
exhausts any fuel. -/
theorem emptySearch_diverges_aux (s : List Nat) (hs : 0 < s.length) :
    ∀ fuel acc, scanRegions emptySearch s fuel 0 acc = none := by
  intro fuel
  induction fuel with
  | zero => intro acc; rfl
  | succ fuel ih =>
    intro acc
    rw [scanRegions, if_pos hs]
    have : emptySearch s 0 = some (0, 0) := by
      unfold emptySearch
      rw [if_pos (by omega)]
    rw [this]
    exact ih (acc ++ [(0, 0)])

/-- C8 (counterexample): for a pattern that can match the empty string
(modelled by emptySearch, e.g. the regex a* on candidate b"b"), the
region-collection scan does not terminate: i = v = u stays 0 forever. -/
theorem C8_counterexample : ¬ scanTerminates emptySearch [98] := by
  intro h
  obtain ⟨fuel, hf⟩ := h
  rw [emptySearch_diverges_aux [98] (by simp) fuel []] at hf
  simp at hf

/-- Helper: with a valid searcher whose matches are nonempty, fuel
len + 1 suffices and the collected spans are ascending from the scan
position. -/
theorem scanRegions_ordered (search : List Nat → Nat → Option (Nat × Nat))
    (s : List Nat)
    (hsearch : ∀ i u v, search s i = some (u, v) →
      i ≤ u ∧ u < v ∧ v ≤ s.length) :
    ∀ fuel i acc, s.length < fuel + i → 1 ≤ fuel →
      ∃ tail, scanRegions search s fuel i acc = some (acc ++ tail) ∧
        orderedFrom i tail = true := by
  intro fuel
  induction fuel with
  | zero => intro i acc h h1; omega
  | succ fuel ih =>
    intro i acc h h1
    by_cases hi : i < s.length
    · rw [scanRegions, if_pos hi]
      cases hsr : search s i with
      | none =>
        refine ⟨[], ?_, rfl⟩
        show some acc = some (acc ++ [])
        simp
      | some uv =>
        obtain ⟨u, v⟩ := uv
        obtain ⟨hu1, hu2, hu3⟩ := hsearch i u v hsr
        obtain ⟨tail, htail, hord⟩ := ih v (acc ++ [(u, v)]) (by omega) (by omega)
        refine ⟨(u, v) :: tail, ?_, ?_⟩
        · show scanRegions search s fuel v (acc ++ [(u, v)]) = some (acc ++ (u, v) :: tail)
          rw [htail]
          simp
        · rw [orderedFrom]
          simp only [Bool.and_eq_true, decide_eq_true_eq]
          exact ⟨⟨hu1, hu2⟩, hord⟩
    · rw [scanRegions, if_neg hi]
      refine ⟨[], ?_, rfl⟩
      show some acc = some (acc ++ [])
      simp

/-- C8 (amended): for every searcher whose matches are nonempty spans
(i <= u < v <= len) -- which holds for every pattern that cannot match
the empty string, such as all patterns used in this module -- the scan
terminates within len + 1 steps and the collected regions are ascending
with each region starting no earlier than the previous end, hence
pairwise non-overlapping. -/
theorem C8_scan_ordered (search : List Nat → Nat → Option (Nat × Nat))
    (s : List Nat)
    (hsearch : ∀ i u v, search s i = some (u, v) →
      i ≤ u ∧ u < v ∧ v ≤ s.length) :
    ∃ regs, scanRegions search s (s.length + 1) 0 [] = some regs ∧
      orderedFrom 0 regs = true := by
  obtain ⟨tail, htail, hord⟩ :=
    scanRegions_ordered search s hsearch (s.length + 1) 0 [] (by omega) (by omega)
  exact ⟨tail, by simpa using htail, hord⟩

/-- A concrete valid searcher: every position matches exactly one byte,
like the regex dot. -/
def searchOne (s : List Nat) (i : Nat) : Option (Nat × Nat) :=
  if i < s.length then some (i, i + 1) else none

/-- Witness for C8 on the two-byte candidate [5, 6]. -/
theorem C8_witness :
    ∃ regs, scanRegions searchOne [5, 6] 3 0 [] = some regs ∧
      orderedFrom 0 regs = true :=
  C8_scan_ordered searchOne [5, 6]
    (fun i u v h => by
      unfold searchOne at h
      by_cases hi : i < ([5, 6] : List Nat).length
      · rw [if_pos hi] at h
        rw [Option.some.injEq, Prod.mk.injEq] at h
        obtain ⟨rfl, rfl⟩ := h
        have h2 : ([5, 6] : List Nat).length = 2 := rfl
        rw [h2] at hi
        refine ⟨le_refl i, by omega, by rw [h2]; omega⟩
      · rw [if_neg hi] at h
        cases h)

/-! ### Expression folding (combine_expressions) -/

/-- The operator character class of combine_expressions, written in the
source as star, plus, hyphen, slash inside brackets. Inside a class the
hyphen between plus and slash denotes the byte RANGE 43..47, so the class
is the asterisk 42 together with 43 (plus), 44 (comma), 45 (minus),
46 (dot) and 47 (slash) -- not just the four arithmetic operators. -/
def isOpByte (c : Nat) : Bool := c = 42 || (43 ≤ c && c ≤ 47)

/-- Value of a nonempty ASCII digit run. -/
def decVal (ds : List Nat) : Nat :=
  ds.foldl (fun a c => a * 10 + (c - 48)) 0

/-- Full match of the combine_expressions pattern
digits, space, class byte, space, digits against a region. -/
def parseArith (s : List Nat) : Option (Nat × Nat × Nat) :=
  match s.dropWhile isDigit with
  | 32 :: op :: 32 :: rest2 =>
    if s.takeWhile isDigit ≠ [] ∧ isOpByte op = true ∧
        rest2.takeWhile isDigit ≠ [] ∧ rest2.dropWhile isDigit = [] then
      some (decVal (s.takeWhile isDigit), op, decVal (rest2.takeWhile isDigit))
    else none
  | _ => none

/-- Whether a byte string is a region matched by the
combine_expressions pattern. -/
def matchesArith (s : List Nat) : Bool := (parseArith s).isSome

/-- Outcome of eval on a matched region: ok covers the plain results
(integer for * + -, float for / with nonzero divisor, tuple for comma);
arithError is ZeroDivisionError, a subclass of ArithmeticError, raised by
division by zero; syntaxError is the SyntaxError raised by eval on
b"a . b", since a dot between two number tokens is not valid Python. -/
inductive PyEvalOutcome where
  | ok
  | arithError
  | syntaxError
deriving DecidableEq

/-- eval(problem.current_test_case) on a matched region, classified by
outcome. -/
def evalArith (s : List Nat) : Option PyEvalOutcome :=
  match parseArith s with
  | none => none
  | some (_, op, b) =>
    if op = 46 then some .syntaxError
    else if op = 47 ∧ b = 0 then some .arithError
    else some .ok

/-- Whether one invocation of the combine_expressions body returns
normally or lets an exception escape. -/
inductive PassResult where
  | completed
  | raised
deriving DecidableEq

/-- The try/except ArithmeticError body of combine_expressions:
ArithmeticError is swallowed, any other exception (such as the
SyntaxError from a dot region) propagates out of the pass. -/
def combine_expressions_step (s : List Nat) : Option PassResult :=
  match evalArith s with
  | none => none
  | some .syntaxError => some .raised
  | some .arithError => some .completed
  | some .ok => some .completed

/-- C5: the region b"1 . 2" is matched by the pass pattern, eval raises
SyntaxError on it, and SyntaxError is not an ArithmeticError, so it
escapes the except clause and aborts the run -- contradicting the claim
that only arithmetic failures can occur and are all caught. Division by
zero (b"1 / 0") and ordinary arithmetic (b"1 + 2") complete normally. -/
theorem C5_eval_dot_raises :
    matchesArith [49, 32, 46, 32, 50] = true ∧
    evalArith [49, 32, 46, 32, 50] = some PyEvalOutcome.syntaxError ∧
    combine_expressions_step [49, 32, 46, 32, 50] = some PassResult.raised ∧
    combine_expressions_step [49, 32, 47, 32, 48] = some PassResult.completed ∧
    combine_expressions_step [49, 32, 43, 32, 50] = some PassResult.completed := by
  constructor
  · decide
  constructor
  · decide
  constructor
  · decide
  constructor
  · decide
  · decide

/-! ### The region-parallel engine: concurrency model for the commit protocol -/




/-- Helper: when index i is outside the walked range, the walk ignores
both i and s. -/
theorem replaceAux_out_eq (initial : List Nat) :
    ∀ (ps : List ((Nat × Nat) × List Nat)) (prev j i1 i2 : Nat)
      (s1 s2 : List Nat),
      (i1 < j ∨ j + ps.length ≤ i1) → (i2 < j ∨ j + ps.length ≤ i2) →
      replaceAux initial i1 s1 ps prev j = replaceAux initial i2 s2 ps prev j := by
  intro ps
  induction ps with
  | nil => intro prev j i1 i2 s1 s2 _ _; rfl
  | cons p rest ih =>
    obtain ⟨⟨u, v⟩, rj⟩ := p
    intro prev j i1 i2 s1 s2 h1 h2
    simp only [List.length_cons] at h1 h2
    rw [replaceAux, replaceAux, if_neg (by omega), if_neg (by omega)]
    rw [ih v (j + 1) i1 i2 s1 s2 (by omega) (by omega)]

/-- Helper: walking with slot k overwritten by s and no insertion index
equals walking the original slots inserting s at position k. -/
theorem replaceAux_set_shift (initial : List Nat) (sbig : List Nat) :
    ∀ (regs : List (Nat × Nat)) (slots : List (List Nat)) (k : Nat)
      (s : List Nat) (prev j ibig : Nat),
      k < regs.length → k < slots.length →
      j + min regs.length slots.length ≤ ibig →
      replaceAux initial ibig sbig (regs.zip (slots.set k s)) prev j
        = replaceAux initial (j + k) s (regs.zip slots) prev j := by
  intro regs
  induction regs with
  | nil => intro slots k s prev j ibig h1 _ _; simp at h1
  | cons uv rest ih =>
    obtain ⟨u, v⟩ := uv
    intro slots k s prev j ibig h1 h2 hbig
    cases slots with
    | nil => simp at h2
    | cons r0 slots' =>
      have hmin : min ((u, v) :: rest).length (r0 :: slots').length
          = min rest.length slots'.length + 1 := by
        simp only [List.length_cons]
        omega
      rw [hmin] at hbig
      cases k with
      | zero =>
        rw [List.set_cons_zero]
        simp only [List.zip_cons_cons]
        rw [replaceAux, replaceAux, if_neg (by omega), if_pos (by omega : j = j + 0)]
        rw [replaceAux_out_eq initial (rest.zip slots') v (j + 1) ibig (j + 0)
          sbig s (by rw [List.length_zip]; omega) (by omega)]
      | succ k' =>
        rw [List.set_cons_succ]
        simp only [List.zip_cons_cons]
        rw [replaceAux, replaceAux, if_neg (by omega), if_neg (by omega)]
        have harg : j + (k' + 1) = (j + 1) + k' := by omega
        rw [harg]
        rw [ih slots' k' s v (j + 1) ibig (by simpa using h1)
          (by simpa using h2) (by omega)]

/-- Helper: writing back the element read at an in-range index is the
identity. -/
theorem set_getD_self (l : List (List Nat)) :
    ∀ k, k < l.length → l.set k (l.getD k []) = l := by
  induction l with
  | nil => intro k h; simp at h
  | cons a t ih =>
    intro k h
    cases k with
    | zero => simp
    | succ k' =>
      rw [List.set_cons_succ]
      simp only [List.getD_cons_succ]
      rw [ih k' (by simpa using h)]

/-- Helper: the full reconstruction after committing slot k to s equals
the pre-commit reconstruction replace(k, s). -/
theorem commit_reconstruct (initial : List Nat) (regs : List (Nat × Nat))
    (slots : List (List Nat)) (k : Nat) (s : List Nat)
    (h1 : k < regs.length) (h2 : k < slots.length) :
    replace initial regs (slots.set k s) regs.length []
      = replace initial regs slots k s := by
  unfold replace
  have := replaceAux_set_shift initial [] regs slots k s 0 0 regs.length h1 h2
    (by omega)
  simpa using this

/-- Helper: reconstructing with a slot value plugged back into its own
position is the full reconstruction, independently of the position. -/
theorem self_insert_reconstruct (initial : List Nat) (regs : List (Nat × Nat))
    (slots : List (List Nat)) (i : Nat)
    (h1 : i < regs.length) (h2 : i < slots.length) :
    replace initial regs slots i (slots.getD i [])
      = replace initial regs slots regs.length [] := by
  conv_rhs => rw [← set_getD_self slots i h2]
  rw [commit_reconstruct initial regs slots i (slots.getD i []) h1 h2]

/-- Local state of one per-region task of regex_pass, between suspension
points: idle at the top of the retry loop (with its retry count and
merging flag), suspended inside a probe of the oracle with the attempt it
submitted, finished with the Bool it reported, or crashed on the failed
retries assertion. -/
inductive TaskPhase where
  | idle (retries : Nat) (merging : Bool)
  | probing (attempt : List Nat) (retries : Nat) (merging : Bool)
  | finished (result : Bool)
  | crashed
deriving DecidableEq

/-- Global state of the engine, modelled from the spec for the parts
outside this module: the Candidate Session holds one current candidate,
and a true proposeCandidate atomically makes the proposal the current
candidate. Shared state of the pass itself is the slot array and the
merge-attempt counter; initial, regions and props (one pending proposal
value per region task) are fixed for the run. -/
structure EngineConfig where
  initial : List Nat
  regions : List (Nat × Nat)
  slots : List (List Nat)
  current : List Nat
  merge : Nat
  tasks : List TaskPhase
  props : List (List Nat)
deriving DecidableEq

/-- Scheduler actions: let task k compute its attempt and enter its
oracle probe, or let a pending probe of task k resolve. Each action is
the code between two suspension points of is_interesting, executed
atomically as trio does between checkpoints. -/
inductive EAction where
  | start (k : Nat)
  | fin (k : Nat)
deriving DecidableEq

/-- Task k at the top of its loop: a non-merging task blocks while the
merge-attempt counter is positive (the backoff wait); otherwise it
computes attempt = replace(k, s) synchronously and suspends in the
oracle call. -/
def startProbe (c : EngineConfig) (k : Nat) : Option EngineConfig :=
  match c.tasks[k]?, c.props[k]? with
  | some (.idle retries merging), some s =>
      if merging = false ∧ 0 < c.merge then none
      else some { c with tasks := (c.tasks.set k
          (.probing (replace c.initial c.regions c.slots k s) retries merging)) }
  | _, _ => none

/-- Resolution of a pending probe of task k, the body of is_interesting
after the await returns: a false oracle answer reports not interesting;
on a true answer the session has made attempt current, and the recheck
replace(k, s) == attempt either commits slot k, or (on a sibling
conflict) increments the merge counter, bumps retries and retries from
the top, crashing on the assert retries <= 100 when retries would exceed
100. The finally block decrements the counter for a merging task on
every exit. -/
def resolveProbe (f : List Nat → Bool) (c : EngineConfig) (k : Nat) :
    Option EngineConfig :=
  match c.tasks[k]?, c.props[k]? with
  | some (.probing attempt retries merging), some s =>
      if f attempt = false then
        some { c with tasks := c.tasks.set k (.finished false),
                      merge := if merging then c.merge - 1 else c.merge }
      else if replace c.initial c.regions c.slots k s = attempt then
        some { c with current := attempt,
                      slots := c.slots.set k s,
                      tasks := c.tasks.set k (.finished true),
                      merge := if merging then c.merge - 1 else c.merge }
      else if retries + 1 > 100 then
        some { c with current := attempt,
                      tasks := c.tasks.set k .crashed,
                      merge := (if merging then c.merge else c.merge + 1) - 1 }
      else
        some { c with current := attempt,
                      tasks := c.tasks.set k (.idle (retries + 1) true),
                      merge := if merging then c.merge else c.merge + 1 }
  | _, _ => none

/-- One scheduler step; none means the action is not enabled. -/
def estep (f : List Nat → Bool) (c : EngineConfig) : EAction → Option EngineConfig
  | .start k => startProbe c k
  | .fin k => resolveProbe f c k

/-- Run a schedule of actions from a configuration. -/
def runActs (f : List Nat → Bool) : EngineConfig → List EAction → Option EngineConfig
  | c, [] => some c
  | c, a :: rest =>
      match estep f c a with
      | none => none
      | some c1 => runActs f c1 rest


/-- Pass-start configuration: slots hold the matched bytes, the current
candidate is the pass-start snapshot, no merge is in flight, all tasks
idle with zero retries. -/
def initEngineConfig (initial : List Nat) (regions : List (Nat × Nat))
    (props : List (List Nat)) : EngineConfig :=
  { initial := initial
    regions := regions
    slots := snapshotRepls initial regions
    current := initial
    merge := 0
    tasks := List.replicate regions.length (.idle 0 false)
    props := props }

/-- The reconstruction invariant of the claim: replace(i, replacements[i])
equals the session current test case for every region index i. -/
def invariantB (c : EngineConfig) : Bool :=
  decide (∀ i, i < c.regions.length →
    replace c.initial c.regions c.slots i (c.slots.getD i []) = c.current)

/-- Structural well-formedness: one slot, one task and one proposal per
region. -/
def wfB (c : EngineConfig) : Bool :=
  decide (c.slots.length = c.regions.length) &&
    decide (c.tasks.length = c.regions.length) &&
    decide (c.props.length = c.regions.length)

/-- Whether an action is a conflicting acceptance: the oracle accepts the
pending attempt but a sibling slot changed under it, so the recheck
fails. These are exactly the steps of the merge-retry protocol. -/
def stepConflicts (f : List Nat → Bool) (c : EngineConfig) : EAction → Bool
  | .start _ => false
  | .fin k =>
      match c.tasks[k]?, c.props[k]? with
      | some (.probing attempt _ _), some s =>
          f attempt && decide (replace c.initial c.regions c.slots k s ≠ attempt)
      | _, _ => false

/-- A schedule is conflict-free from c when no step of its run is a
conflicting acceptance. -/
def cleanRun (f : List Nat → Bool) : EngineConfig → List EAction → Bool
  | _, [] => true
  | c, a :: rest =>
      !stepConflicts f c a &&
        (match estep f c a with
        | none => true
        | some c1 => cleanRun f c1 rest)


/-- Helper: the invariant only depends on the snapshot, regions, slots
and current candidate. -/
theorem invariantB_same_core {c c1 : EngineConfig}
    (hini : c1.initial = c.initial) (hreg : c1.regions = c.regions)
    (hslots : c1.slots = c.slots) (hcur : c1.current = c.current)
    (h : invariantB c = true) : invariantB c1 = true := by
  unfold invariantB at h ⊢
  rw [hini, hreg, hslots, hcur]
  exact h

/-- Helper: updating a task slot preserves well-formedness. -/
theorem wfB_set_tasks {c : EngineConfig} {k : Nat} {t : TaskPhase}
    (h : wfB c = true) :
    wfB { c with tasks := c.tasks.set k t } = true := by
  unfold wfB at h ⊢
  simpa [List.length_set] using h

/-- Helper: a successful indexed read bounds the index. -/
theorem getElem?_lt {α : Type} {l : List α} {k : Nat} {x : α}
    (h : l[k]? = some x) : k < l.length :=
  (List.getElem?_eq_some.mp h).1

/-- Helper: every enabled non-conflicting step preserves well-formedness
and the reconstruction invariant; the commit step re-establishes it via
the recheck replace(k, s) == attempt. -/
theorem estep_preserves (f : List Nat → Bool) (c c1 : EngineConfig)
    (a : EAction) (hwf : wfB c = true) (hinv : invariantB c = true)
    (hcf : stepConflicts f c a = false) (hstep : estep f c a = some c1) :
    wfB c1 = true ∧ invariantB c1 = true := by
  cases a with
  | start k =>
    rw [estep] at hstep
    unfold startProbe at hstep
    split at hstep
    · rename_i retries merging s htask hprop
      split at hstep
      · cases hstep
      · rw [Option.some.injEq] at hstep
        subst hstep
        exact ⟨wfB_set_tasks hwf, invariantB_same_core rfl rfl rfl rfl hinv⟩
    · cases hstep
  | fin k =>
    rw [estep] at hstep
    unfold resolveProbe at hstep
    split at hstep
    · rename_i attempt retries merging s htask hprop
      have hconf : stepConflicts f c (EAction.fin k)
          = (f attempt && decide (replace c.initial c.regions c.slots k s ≠ attempt)) := by
        simp only [stepConflicts, htask, hprop]
      rw [hconf] at hcf
      split at hstep
      · -- rejected
        rw [Option.some.injEq] at hstep
        subst hstep
        exact ⟨wfB_set_tasks hwf, invariantB_same_core rfl rfl rfl rfl hinv⟩
      · rename_i hftrue
        split at hstep
        · -- commit
          rename_i hrepl
          rw [Option.some.injEq] at hstep
          subst hstep
          have hklen : k < c.tasks.length := getElem?_lt htask
          have hwf3 := hwf
          unfold wfB at hwf3
          simp only [Bool.and_eq_true, decide_eq_true_eq] at hwf3
          obtain ⟨⟨hsl, htl⟩, hpl⟩ := hwf3
          constructor
          · unfold wfB
            simp only [Bool.and_eq_true, decide_eq_true_eq, List.length_set]
            exact ⟨⟨hsl, htl⟩, hpl⟩
          · unfold invariantB
            rw [decide_eq_true_eq]
            show ∀ i, i < c.regions.length →
              replace c.initial c.regions (c.slots.set k s) i
                ((c.slots.set k s).getD i []) = attempt
            intro i hi
            have hkr : k < c.regions.length := by omega
            have hks : k < c.slots.length := by omega
            have hins := self_insert_reconstruct c.initial c.regions
              (c.slots.set k s) i hi (by rw [List.length_set]; omega)
            rw [hins]
            rw [commit_reconstruct c.initial c.regions c.slots k s hkr hks]
            exact hrepl
        · -- merge conflict: contradicts hcf
          rename_i hne
          exfalso
          have hf : f attempt = true := by
            revert hftrue
            cases f attempt <;> simp
          rw [hf] at hcf
          simp at hcf
          exact hne hcf
    · cases hstep

/-- Helper: a conflict-free schedule preserves the reconstruction
invariant along its whole run. -/
theorem runActs_invariant (f : List Nat → Bool) :
    ∀ (acts : List EAction) (c c' : EngineConfig),
      wfB c = true → invariantB c = true → cleanRun f c acts = true →
      runActs f c acts = some c' → invariantB c' = true ∧ wfB c' = true := by
  intro acts
  induction acts with
  | nil =>
    intro c c' hwf hinv hclean hrun
    rw [runActs, Option.some.injEq] at hrun
    subst hrun
    exact ⟨hinv, hwf⟩
  | cons a rest ih =>
    intro c c' hwf hinv hclean hrun
    rw [runActs] at hrun
    rw [cleanRun, Bool.and_eq_true, Bool.not_eq_true'] at hclean
    obtain ⟨hcf, hclean2⟩ := hclean
    cases hstep : estep f c a with
    | none => rw [hstep] at hrun; cases hrun
    | some c1 =>
      rw [hstep] at hrun hclean2
      obtain ⟨hwf1, hinv1⟩ := estep_preserves f c c1 a hwf hinv hcf hstep
      exact ih c1 c' hwf1 hinv1 hclean2 hrun

/-- C1 (counterexample): a two-region run against an always-true oracle
in which both regions probe concurrently, region 1 commits first, and
region 0 is accepted against the stale sibling value. At the resulting
reachable state task 0 is again suspended in a probe (a suspension point
observable by other tasks), the session current test case is [2] (its
last accepted value), yet every reconstruction replace(i, replacements[i])
yields [1]: the invariant is violated while the merge retry is in
flight. The pass-start configuration itself satisfies the invariant. -/
theorem C1_reconstruction_counterexample :
    runActs (fun _ => true) (initEngineConfig [1, 2] [(0, 1), (1, 2)] [[], []])
        [EAction.start 0, EAction.start 1, EAction.fin 1, EAction.fin 0,
          EAction.start 0]
      = some { initial := [1, 2], regions := [(0, 1), (1, 2)],
               slots := [[1], []], current := [2], merge := 1,
               tasks := [TaskPhase.probing [] 1 true, TaskPhase.finished true],
               props := [[], []] } ∧
    invariantB { initial := [1, 2], regions := [(0, 1), (1, 2)],
                 slots := [[1], []], current := [2], merge := 1,
                 tasks := [TaskPhase.probing [] 1 true, TaskPhase.finished true],
                 props := [[], []] } = false ∧
    wfB (initEngineConfig [1, 2] [(0, 1), (1, 2)] [[], []]) = true ∧
    invariantB (initEngineConfig [1, 2] [(0, 1), (1, 2)] [[], []]) = true := by
  constructor
  · decide
  constructor
  · decide
  constructor
  · decide
  · decide

/-- C1 (amended): along any schedule in which every accepted probe passes
its recheck (no merge conflict), the reconstruction invariant holds at
every suspension point: any reachable configuration of such a run still
satisfies replace(i, replacements[i]) == current for every region i.
When a conflict does occur the invariant can be violated until the
conflicting proposal is recommitted or dropped. -/
theorem C1_reconstruction_conflict_free :
    ∀ (f : List Nat → Bool) (acts : List EAction) (c c' : EngineConfig),
      wfB c = true → invariantB c = true → cleanRun f c acts = true →
      runActs f c acts = some c' → invariantB c' = true :=
  fun f acts c c' hwf hinv hclean hrun =>
    (runActs_invariant f acts c c' hwf hinv hclean hrun).1

/-- Witness for C1 on a conflict-free single-region run. -/
theorem C1_reconstruction_witness :
    invariantB { initial := [7], regions := [(0, 1)], slots := [[]],
                 current := [], merge := 0,
                 tasks := [TaskPhase.finished true], props := [[]] } = true :=
  C1_reconstruction_conflict_free (fun _ => true)
    [EAction.start 0, EAction.fin 0]
    (initEngineConfig [7] [(0, 1)] [[]])
    { initial := [7], regions := [(0, 1)], slots := [[]], current := [],
      merge := 0, tasks := [TaskPhase.finished true], props := [[]] }
    (by decide) (by decide) (by decide) (by decide)

/-- A task has performed at most 100 conflict retries. -/
def retriesOK : TaskPhase → Bool
  | .idle r _ => decide (r ≤ 100)
  | .probing _ r _ => decide (r ≤ 100)
  | .finished _ => true
  | .crashed => true

/-- All tasks are within the retry cap. -/
def retriesLE (c : EngineConfig) : Bool :=
  c.tasks.all retriesOK

/-- Helper: all is preserved by writing an element satisfying the
predicate. -/
theorem all_set {α : Type} (p : α → Bool) :
    ∀ (l : List α) (k : Nat) (x : α),
      l.all p = true → p x = true → (l.set k x).all p = true := by
  intro l
  induction l with
  | nil => intro k x _ _; simp
  | cons a t ih =>
    intro k x hall hx
    rw [List.all_cons, Bool.and_eq_true] at hall
    cases k with
    | zero => simp [hall.2, hx]
    | succ k' =>
      rw [List.set_cons_succ, List.all_cons, Bool.and_eq_true]
      exact ⟨hall.1, ih k' x hall.2 hx⟩

/-- Helper: all gives the predicate at any successfully read index. -/
theorem all_getElem {α : Type} {p : α → Bool} {l : List α} {k : Nat} {x : α}
    (hall : l.all p = true) (h : l[k]? = some x) : p x = true := by
  rw [List.all_eq_true] at hall
  exact hall x (List.getElem?_mem h)

/-- Helper: every step keeps every task within the cap of 100 retries:
the conflict step only increments retries when the result stays at most
100, and crashes otherwise. -/
theorem estep_retries (f : List Nat → Bool) (c c1 : EngineConfig)
    (a : EAction) (hle : retriesLE c = true) (hstep : estep f c a = some c1) :
    retriesLE c1 = true := by
  cases a with
  | start k =>
    rw [estep] at hstep
    unfold startProbe at hstep
    split at hstep
    · rename_i retries merging s htask hprop
      split at hstep
      · cases hstep
      · rw [Option.some.injEq] at hstep
        subst hstep
        unfold retriesLE at hle ⊢
        apply all_set retriesOK c.tasks k _ hle
        have := all_getElem hle htask
        simpa [retriesOK] using this
    · cases hstep
  | fin k =>
    rw [estep] at hstep
    unfold resolveProbe at hstep
    split at hstep
    · rename_i attempt retries merging s htask hprop
      split at hstep
      · rw [Option.some.injEq] at hstep
        subst hstep
        exact all_set retriesOK c.tasks k _ hle rfl
      · split at hstep
        · rw [Option.some.injEq] at hstep
          subst hstep
          exact all_set retriesOK c.tasks k _ hle rfl
        · split at hstep
          · rw [Option.some.injEq] at hstep
            subst hstep
            exact all_set retriesOK c.tasks k _ hle rfl
          · rename_i hcap
            rw [Option.some.injEq] at hstep
            subst hstep
            apply all_set retriesOK c.tasks k _ hle
            simp [retriesOK]
            omega
    · cases hstep

/-- Helper: the retry cap is an invariant of whole runs. -/
theorem runActs_retries (f : List Nat → Bool) :
    ∀ (acts : List EAction) (c c' : EngineConfig),
      retriesLE c = true → runActs f c acts = some c' → retriesLE c' = true := by
  intro acts
  induction acts with
  | nil =>
    intro c c' hle hrun
    rw [runActs, Option.some.injEq] at hrun
    subst hrun
    exact hle
  | cons a rest ih =>
    intro c c' hle hrun
    rw [runActs] at hrun
    cases hstep : estep f c a with
    | none => rw [hstep] at hrun; cases hrun
    | some c1 =>
      rw [hstep] at hrun
      exact ih c1 c' (estep_retries f c c1 a hle hstep) hrun

/-- C4: along any run, no task ever exceeds 100 retries for a single
proposal; and a task whose probe is accepted at retries = 100 with a
failed recheck transitions to the crashed state -- the AssertionError of
assert retries <= 100 -- which is distinct from reporting not
interesting, and from which no further action of that task is enabled,
modelling the fatal error propagating out of the pass. -/
theorem C4_retry_cap :
    ∀ (f : List Nat → Bool) (acts : List EAction) (c c' : EngineConfig),
      (retriesLE c = true → runActs f c acts = some c' →
        retriesLE c' = true) ∧
      (∀ k attempt m s,
        c.tasks[k]? = some (TaskPhase.probing attempt 100 m) →
        c.props[k]? = some s →
        f attempt = true →
        replace c.initial c.regions c.slots k s ≠ attempt →
        ∃ c1, estep f c (EAction.fin k) = some c1 ∧
          c1.tasks[k]? = some TaskPhase.crashed ∧
          c1.tasks[k]? ≠ some (TaskPhase.finished false) ∧
          estep f c1 (EAction.start k) = none ∧
          estep f c1 (EAction.fin k) = none) := by
  intro f acts c c'
  constructor
  · exact runActs_retries f acts c c'
  · intro k attempt m s htask hprop hf hne
    have hklen : k < c.tasks.length := getElem?_lt htask
    refine ⟨({ c with current := attempt, tasks := (c.tasks.set k TaskPhase.crashed), merge := ((if m then c.merge else c.merge + 1) - 1) }), ?_, ?_, ?_, ?_, ?_⟩
    · rw [estep]
      unfold resolveProbe
      rw [htask, hprop]
      dsimp only
      rw [if_neg (show ¬(f attempt = false) by rw [hf]; simp),
        if_neg hne, if_pos (show 100 + 1 > 100 by omega)]
    · show (c.tasks.set k TaskPhase.crashed)[k]? = some TaskPhase.crashed
      exact List.getElem?_set_self hklen
    · show (c.tasks.set k TaskPhase.crashed)[k]? ≠ some (TaskPhase.finished false)
      rw [List.getElem?_set_self hklen]
      intro h
      cases h
    · rw [estep]
      unfold startProbe
      show (match (c.tasks.set k TaskPhase.crashed)[k]?, c.props[k]? with
        | some (TaskPhase.idle retries merging), some s => _
        | _, _ => none) = none
      rw [List.getElem?_set_self hklen]
    · rw [estep]
      unfold resolveProbe
      show (match (c.tasks.set k TaskPhase.crashed)[k]?, c.props[k]? with
        | some (TaskPhase.probing attempt retries merging), some s => _
        | _, _ => none) = none
      rw [List.getElem?_set_self hklen]

/-- Final configuration of a tiny conflict-free run, for the witness. -/
def demoFinalConfig : EngineConfig :=
  { initial := [7], regions := [(0, 1)], slots := [[]], current := [],
    merge := 0, tasks := [TaskPhase.finished true], props := [[]] }

/-- A configuration whose task 0 sits at the retry cap with a pending
accepted-but-stale probe, for the witness. -/
def demoCappedConfig : EngineConfig :=
  { initial := [1, 2], regions := [(0, 1), (1, 2)], slots := [[1], []],
    current := [2], merge := 1,
    tasks := [TaskPhase.probing [2] 100 true, TaskPhase.finished true],
    props := [[], []] }

/-- Witness for C4: the cap invariant on a concrete run, and the crash
transition at retries = 100 on a concrete conflicted configuration. -/
theorem C4_retry_cap_witness :
    retriesLE demoFinalConfig = true ∧
    (∃ c1, estep (fun _ => true) demoCappedConfig (EAction.fin 0) = some c1 ∧
      c1.tasks[0]? = some TaskPhase.crashed ∧
      c1.tasks[0]? ≠ some (TaskPhase.finished false) ∧
      estep (fun _ => true) c1 (EAction.start 0) = none ∧
      estep (fun _ => true) c1 (EAction.fin 0) = none) :=
  ⟨(C4_retry_cap (fun _ => true) [EAction.start 0, EAction.fin 0]
        (initEngineConfig [7] [(0, 1)] [[]]) demoFinalConfig).1
      (by decide) (by decide),
    (C4_retry_cap (fun _ => true) [] demoCappedConfig demoCappedConfig).2
      0 [2] true [] (by decide) (by decide) rfl (by decide)⟩

end Shrinkray
